import Mathlib

/-!
Shallow embedding of `nclib/evaluation/fitness_functions.py`: partition
quality metrics for community detection (quality indexes with min/max/mean/std
summaries, and the modularity-family scores).

Graphs are finite simple undirected graphs without self-loops: a finite node
set together with a finite set of edges stored canonically as ordered pairs
`(a, b)` with `a < b` (well-formedness is the predicate `Graph.WF`).  Python's
true division, which raises `ZeroDivisionError` on a zero denominator, is
modelled by `pydiv` into `Option`; every function that can raise returns an
`Option`, with `none` standing for the propagated exception.
-/

namespace Nclib

/-- A graph in the style of `networkx.Graph`: node set plus undirected edges,
each edge being a pair of endpoints (canonically ordered under `Graph.WF`). -/
structure Graph where
  nodes : Finset ℕ
  edges : Finset (ℕ × ℕ)
deriving DecidableEq

/-- Well-formedness: every edge joins two distinct nodes of the graph and is
stored with its endpoints in increasing order (simple graph, no self-loops). -/
def Graph.WF (G : Graph) : Prop :=
  ∀ p ∈ G.edges, p.1 < p.2 ∧ p.1 ∈ G.nodes ∧ p.2 ∈ G.nodes

instance (G : Graph) : Decidable G.WF :=
  inferInstanceAs (Decidable (∀ p ∈ G.edges, p.1 < p.2 ∧ p.1 ∈ G.nodes ∧ p.2 ∈ G.nodes))

/-- `graph.number_of_edges()`. -/
def Graph.number_of_edges (G : Graph) : ℕ := G.edges.card

/-- `graph.number_of_nodes()` (also `len(graph)`). -/
def Graph.number_of_nodes (G : Graph) : ℕ := G.nodes.card

/-- `graph.degree(v)`: the number of edges incident to `v`. -/
def Graph.degree (G : Graph) (v : ℕ) : ℕ :=
  (G.edges.filter (fun p => p.1 = v ∨ p.2 = v)).card

/-- `nx.subgraph(graph, com)`: the subgraph induced by the nodes of `com`
that belong to the graph. -/
def subgraph (G : Graph) (com : Finset ℕ) : Graph :=
  ⟨G.nodes ∩ com, G.edges.filter (fun p => p.1 ∈ com ∧ p.2 ∈ com)⟩

/-- Python's true division `a / b`: `ZeroDivisionError` (here `none`) when the
denominator is zero. -/
def pydiv (a b : ℚ) : Option ℚ := if b = 0 then none else some (a / b)

/-- `np.mean(l)` for a list of exact values. -/
def npMean (l : List ℚ) : ℚ := l.sum / l.length

/-- The population variance `np.std(l) ** 2` (numpy's default `ddof = 0`). -/
def npVariance (l : List ℚ) : ℚ :=
  (l.map (fun x => (x - npMean l) ^ 2)).sum / l.length

/-- `np.std(l)`: square root of the population variance. -/
noncomputable def npStd (l : List ℚ) : ℝ := Real.sqrt ((npVariance l : ℚ) : ℝ)

/-- `FitnessResult = namedtuple('FitnessResult', ['min', 'max', 'mean', 'std'])`. -/
structure FitnessResult where
  min : ℚ
  max : ℚ
  mean : ℚ
  std : ℝ

/-- `FitnessResult(min=min(values), max=max(values), mean=np.mean(values),
std=np.std(values))`; Python's `min` raises `ValueError` on an empty list. -/
noncomputable def fitnessSummary : List ℚ → Option FitnessResult
  | [] => none
  | x :: xs =>
    some ⟨xs.foldl Min.min x, xs.foldl Max.max x, npMean (x :: xs), npStd (x :: xs)⟩

/-- The named scoring functions of the external `pquality.PartitionQuality`
catalogue that `quality_indexes` may receive. -/
inductive PQMetric where
  | average_internal_degree
  | internal_edge_density
  | triangle_participation_ratio
  | edges_inside
  | fraction_over_median_degree
  | normalized_cut
  | conductance
  | expansion
  | cut_ratio
  | max_odf
  | avg_odf
  | flake_odf
deriving DecidableEq

/-- The literal list tested by `scoring_function in [...]` in
`quality_indexes`: the metrics called on the community subgraph alone. -/
def subgraphOnlyMetrics : List PQMetric :=
  [.average_internal_degree, .internal_edge_density, .triangle_participation_ratio,
   .edges_inside, .fraction_over_median_degree]

/-- The external `pquality` collaborator: the per-metric scoring semantics,
as a one-argument (subgraph only) and a two-argument (graph, subgraph) form. -/
structure PQLib where
  evalSub : PQMetric → Graph → ℚ
  evalRel : PQMetric → Graph → Graph → ℚ

/-- A `scoring_function` argument: either one of the named `pquality` metrics
or an ad-hoc two-argument function (such as the lambda used by `size`). -/
inductive ScoringFunction where
  | pq (m : PQMetric)
  | custom (f : Graph → Graph → ℚ)

/-- The loop body of `quality_indexes`: the membership test on the five
subgraph-only metrics decides whether the scoring function is applied to the
community subgraph alone or to the pair (graph, community subgraph). -/
def applyScoring (lib : PQLib) (sf : ScoringFunction) (graph community : Graph) : ℚ :=
  match sf with
  | .pq m =>
    if m ∈ subgraphOnlyMetrics then lib.evalSub m community
    else lib.evalRel m graph community
  | .custom f => f graph community

/-- The `values` list accumulated by the loop of `quality_indexes`, in the
order the communities appear. -/
def communityValues (lib : PQLib) (graph : Graph) (communities : List (Finset ℕ))
    (sf : ScoringFunction) : List ℚ :=
  communities.map (fun com => applyScoring lib sf graph (subgraph graph com))

/-- The two possible shapes of a `quality_indexes` return value. -/
inductive QualityOutput where
  | summarized (r : FitnessResult)
  | raw (values : List ℚ)

/-- `quality_indexes(graph, communities, scoring_function, summary=True)`. -/
noncomputable def quality_indexes (lib : PQLib) (graph : Graph)
    (communities : List (Finset ℕ)) (sf : ScoringFunction)
    (summary : Bool := true) : Option QualityOutput :=
  let values := communityValues lib graph communities sf
  if summary then (fitnessSummary values).map .summarized
  else some (.raw values)

/-- `size(graph, community, **kwargs)`: `quality_indexes` applied to
`lambda graph, com: len(com)` (the community argument it receives is the
induced subgraph, and `len` of a graph is its number of nodes). -/
noncomputable def size (lib : PQLib) (graph : Graph) (communities : List (Finset ℕ))
    (summary : Bool := true) : Option QualityOutput :=
  quality_indexes lib graph communities
    (.custom (fun _graph com => (com.number_of_nodes : ℚ))) summary

/-- The dictionary built by the loop of `newman_girvan_modularity`:
`for cid, com in enumerate(...): for node in com: partition[node] = cid`. -/
def buildPartitionAux : ℕ → List (Finset ℕ) → (ℕ → Option ℕ) → (ℕ → Option ℕ)
  | _, [], acc => acc
  | cid, com :: rest, acc =>
    buildPartitionAux (cid + 1) rest (fun v => if v ∈ com then some cid else acc v)

/-- The node → community-id assignment of `newman_girvan_modularity`. -/
def buildPartition (communities : List (Finset ℕ)) : ℕ → Option ℕ :=
  buildPartitionAux 0 communities (fun _ => none)

/-- Modelled from the spec: `pq.PartitionQuality.community_modularity` lives in
the external `pquality` package, not in this repository; the spec states that,
from a node → community-id assignment, it computes standard modularity
`Q = Σ_c (e_c/m − (d_c/2m)²)`, failing by division by zero when `m = 0`. -/
def community_modularity (part : ℕ → Option ℕ) (graph : Graph) : Option ℚ :=
  let m := graph.number_of_edges
  if m = 0 then none
  else
    let cids : Finset ℕ := graph.nodes.biUnion (fun v => (part v).toFinset)
    some (cids.sum (fun c =>
      let ec := (graph.edges.filter (fun p => part p.1 = some c ∧ part p.2 = some c)).card
      let dc := (graph.nodes.filter (fun v => part v = some c)).sum graph.degree
      (ec : ℚ) / m - ((dc : ℚ) / (2 * m)) ^ 2))

/-- `newman_girvan_modularity(graph, communities)`. -/
def newman_girvan_modularity (graph : Graph) (communities : List (Finset ℕ)) :
    Option ℚ :=
  community_modularity (buildPartition communities) graph

/-- The per-community term accumulated by the loop of
`erdos_renyi_modularity`: `mc - (m*nc*(nc - 1)) / (n*(n-1))`. -/
def erTerm (graph : Graph) (m n : ℕ) (com : Finset ℕ) : ℚ :=
  let c := subgraph graph com
  let mc := c.number_of_edges
  let nc := c.number_of_nodes
  (mc : ℚ) - ((m : ℚ) * nc * ((nc : ℚ) - 1)) / ((n : ℚ) * ((n : ℚ) - 1))

/-- The loop of `erdos_renyi_modularity`: the division raises when
`n*(n-1) = 0`, i.e. when the graph has at most one node. -/
def erLoop (graph : Graph) (m n : ℕ) : ℚ → List (Finset ℕ) → Option ℚ
  | q, [] => some q
  | q, com :: rest =>
    if ((n : ℚ) * ((n : ℚ) - 1)) = 0 then none
    else erLoop graph m n (q + erTerm graph m n com) rest

/-- `erdos_renyi_modularity(graph, communities)`: the loop, then
`(1 / m) * q`, whose division raises when `m = 0`. -/
def erdos_renyi_modularity (graph : Graph) (communities : List (Finset ℕ)) :
    Option ℚ :=
  let m := graph.number_of_edges
  let n := graph.number_of_nodes
  match erLoop graph m n 0 communities with
  | none => none
  | some q => if m = 0 then none else some ((1 / (m : ℚ)) * q)

/-- The per-community term of `modularity_density`:
`(1/nc) * (np.mean(dint) - np.mean(dext))`, where `dint` collects the
subgraph degrees and `dext` the differences `graph.degree - subgraph.degree`
over the community's nodes. -/
def mdTerm (graph : Graph) (com : Finset ℕ) : ℚ :=
  let c := subgraph graph com
  let nc := c.number_of_nodes
  (1 / (nc : ℚ)) *
    ((c.nodes.sum (fun v => (c.degree v : ℚ))) / nc -
      (c.nodes.sum (fun v => (graph.degree v : ℚ) - (c.degree v : ℚ))) / nc)

/-- The loop of `modularity_density`: `1 / nc` raises when the induced
subgraph has no nodes. -/
def mdLoop (graph : Graph) : ℚ → List (Finset ℕ) → Option ℚ
  | q, [] => some q
  | q, com :: rest =>
    if (subgraph graph com).number_of_nodes = 0 then none
    else mdLoop graph (q + mdTerm graph com) rest

/-- `modularity_density(graph, communities)`. -/
def modularity_density (graph : Graph) (communities : List (Finset ℕ)) :
    Option ℚ :=
  mdLoop graph 0 communities

/-- The degree sum `dc` accumulated for one community in `z_modularity`:
`for node in c: dc += c.degree(node)`. -/
def dcSum (c : Graph) : ℕ := c.nodes.sum (fun v => c.degree v)

/-- The loop of `z_modularity`, accumulating `mmc += mc/m` and
`dc2m += (dc/(2*m))**2`; both divisions raise when `m = 0`. -/
def zLoop (graph : Graph) (m : ℕ) : ℚ → ℚ → List (Finset ℕ) → Option (ℚ × ℚ)
  | mmc, dc2m, [] => some (mmc, dc2m)
  | mmc, dc2m, com :: rest =>
    let c := subgraph graph com
    if m = 0 then none
    else
      zLoop graph m (mmc + (c.number_of_edges : ℚ) / m)
        (dc2m + ((dcSum c : ℚ) / (2 * m)) ^ 2) rest

/-- `z_modularity(graph, communities)`: the final
`(mmc - dc2m) / np.sqrt(dc2m * (1 - dc2m))` is numpy floating point and does
not raise (it yields `nan`/`inf` junk instead, as does `Real.sqrt`/`x / 0`). -/
noncomputable def z_modularity (graph : Graph) (communities : List (Finset ℕ)) :
    Option ℝ :=
  let m := graph.number_of_edges
  (zLoop graph m 0 0 communities).map (fun p =>
    ((p.1 - p.2 : ℚ) : ℝ) / Real.sqrt ((p.2 : ℚ) * ((1 : ℚ) - p.2)))

/-- The simplified form of `z_modularity` claimed equivalent to it: with
`s1 = Σ_c mc/m` and `s2 = Σ_c (mc/m)²`, the value
`(s1 - s2) / sqrt(s2 * (1 - s2))`. -/
noncomputable def z_modularity_simplified (graph : Graph)
    (communities : List (Finset ℕ)) : ℝ :=
  let m := graph.number_of_edges
  let s1 := (communities.map
    (fun com => ((subgraph graph com).number_of_edges : ℚ) / m)).sum
  let s2 := (communities.map
    (fun com => (((subgraph graph com).number_of_edges : ℚ) / m) ^ 2)).sum
  ((s1 - s2 : ℚ) : ℝ) / Real.sqrt ((s2 : ℚ) * ((1 : ℚ) - s2))

/-- `surprise(graph, communities)`: integer sums `q = Σ mc` and
`qa = Σ C(nc,2)` over the communities, then the divisions `q/m`,
`qa/C(n,2)`, `q/qa` and `(1-q)/(1-qa)` (each raising on a zero denominator)
feed `m*(q*np.log(q/qa) + (1-q)*np.log2((1-q)/(1-qa)))`. -/
noncomputable def surprise (graph : Graph) (communities : List (Finset ℕ)) :
    Option ℝ :=
  let m := graph.number_of_edges
  let n := graph.number_of_nodes
  let qsum := (communities.map
    (fun com => (subgraph graph com).number_of_edges)).sum
  let qasum := (communities.map
    (fun com => Nat.choose (subgraph graph com).number_of_nodes 2)).sum
  do
    let q ← pydiv (qsum : ℚ) (m : ℚ)
    let qa ← pydiv (qasum : ℚ) ((Nat.choose n 2 : ℕ) : ℚ)
    let r1 ← pydiv q qa
    let r2 ← pydiv (1 - q) (1 - qa)
    some ((m : ℝ) * ((q : ℚ) * Real.log ((r1 : ℚ) : ℝ) +
      ((1 : ℝ) - (q : ℚ)) * Real.logb 2 ((r2 : ℚ) : ℝ)))

/-- The loop of `significance`: per community, `pc = mc / C(nc,2)` and the
divisions `pc/p` and `(1-pc)/(1-p)` (each raising on a zero denominator)
accumulate `C(nc,2) * (pc*np.log(pc/p) + (1-pc)*np.log((1-pc)/(1-p)))`. -/
noncomputable def sigLoop (graph : Graph) (p : ℚ) :
    ℝ → List (Finset ℕ) → Option ℝ
  | q, [] => some q
  | q, com :: rest => do
    let c := subgraph graph com
    let binom_c := Nat.choose c.number_of_nodes 2
    let pc ← pydiv (c.number_of_edges : ℚ) (binom_c : ℚ)
    let r1 ← pydiv pc p
    let r2 ← pydiv (1 - pc) (1 - p)
    sigLoop graph p
      (q + (binom_c : ℝ) * ((pc : ℚ) * Real.log ((r1 : ℚ) : ℝ) +
        ((1 : ℝ) - (pc : ℚ)) * Real.log ((r2 : ℚ) : ℝ))) rest

/-- `significance(graph, communities)`: `p = m / C(m,2)` (raising when
`C(m,2) = 0`, in particular when `m = 0`), then the loop. -/
noncomputable def significance (graph : Graph) (communities : List (Finset ℕ)) :
    Option ℝ :=
  let m := graph.number_of_edges
  let binom := Nat.choose m 2
  do
    let p ← pydiv (m : ℚ) (binom : ℚ)
    sigLoop graph p 0 communities

/-- A path 0 - 1 - 2 on three nodes, used to evaluate theorems concretely. -/
def pathGraph : Graph := ⟨{0, 1, 2}, {(0, 1), (1, 2)}⟩

/-- The 4-node ring 0 - 1 - 2 - 3 - 0 of the end-to-end scenario. -/
def ringGraph : Graph := ⟨{0, 1, 2, 3}, {(0, 1), (1, 2), (2, 3), (0, 3)}⟩

/-- A single isolated node (no edges), used to evaluate the failure cases. -/
def singletonGraph : Graph := ⟨{0}, ∅⟩

/-- A trivial stand-in for the external `pquality` scoring semantics, used to
evaluate theorems concretely. -/
def constLib : PQLib := ⟨fun _ g => (g.number_of_nodes : ℚ), fun _ _ g => (g.number_of_edges : ℚ)⟩

/-- The greatest position of a community containing `v`, if any: the
reference point for the overwriting behaviour of `buildPartition`. -/
def lastMem : List (Finset ℕ) → ℕ → Option ℕ
  | [], _ => none
  | com :: rest, v =>
    match lastMem rest v with
    | some j => some (j + 1)
    | none => if v ∈ com then some 0 else none

/-! ### Helper lemmas: folded minima and maxima, sums against bounds -/

theorem foldl_min_le_init (xs : List ℚ) : ∀ x : ℚ, xs.foldl Min.min x ≤ x := by
  induction xs with
  | nil => intro x; simp
  | cons a as ih =>
    intro x
    calc (a :: as).foldl Min.min x = as.foldl Min.min (Min.min x a) := by
          simp [List.foldl_cons]
    _ ≤ Min.min x a := ih _
    _ ≤ x := min_le_left _ _

theorem foldl_min_le (xs : List ℚ) :
    ∀ x y : ℚ, y ∈ x :: xs → xs.foldl Min.min x ≤ y := by
  induction xs with
  | nil =>
    intro x y hy
    have : y = x := by simpa using hy
    simp [this]
  | cons a as ih =>
    intro x y hy
    rcases List.mem_cons.mp hy with h | h
    · subst h
      exact foldl_min_le_init _ _
    · rcases List.mem_cons.mp h with h | h
      · subst h
        calc (y :: as).foldl Min.min x = as.foldl Min.min (Min.min x y) := by
              simp [List.foldl_cons]
        _ ≤ Min.min x y := foldl_min_le_init _ _
        _ ≤ y := min_le_right _ _
      · simp only [List.foldl_cons]
        exact ih (Min.min x a) y (List.mem_cons_of_mem _ h)

theorem le_foldl_max_init (xs : List ℚ) : ∀ x : ℚ, x ≤ xs.foldl Max.max x := by
  induction xs with
  | nil => intro x; simp
  | cons a as ih =>
    intro x
    calc x ≤ Max.max x a := le_max_left _ _
    _ ≤ as.foldl Max.max (Max.max x a) := ih _
    _ = (a :: as).foldl Max.max x := by simp [List.foldl_cons]

theorem le_foldl_max (xs : List ℚ) :
    ∀ x y : ℚ, y ∈ x :: xs → y ≤ xs.foldl Max.max x := by
  induction xs with
  | nil =>
    intro x y hy
    have : y = x := by simpa using hy
    simp [this]
  | cons a as ih =>
    intro x y hy
    rcases List.mem_cons.mp hy with h | h
    · subst h
      exact le_foldl_max_init _ _
    · rcases List.mem_cons.mp h with h | h
      · subst h
        calc y ≤ Max.max x y := le_max_right _ _
        _ ≤ as.foldl Max.max (Max.max x y) := le_foldl_max_init _ _
        _ = (y :: as).foldl Max.max x := by simp [List.foldl_cons]
      · simp only [List.foldl_cons]
        exact ih (Max.max x a) y (List.mem_cons_of_mem _ h)

theorem mul_length_le_sum (l : List ℚ) (c : ℚ) (h : ∀ x ∈ l, c ≤ x) :
    c * (l.length : ℚ) ≤ l.sum := by
  induction l with
  | nil => simp
  | cons a as ih =>
    have ha : c ≤ a := h a (List.mem_cons_self a as)
    have has := ih (fun x hx => h x (List.mem_cons_of_mem a hx))
    have expand : c * (((a :: as).length : ℕ) : ℚ) = c * ((as.length : ℕ) : ℚ) + c := by
      push_cast [List.length_cons]
      ring
    rw [expand, List.sum_cons]
    linarith

theorem sum_le_mul_length (l : List ℚ) (c : ℚ) (h : ∀ x ∈ l, x ≤ c) :
    l.sum ≤ c * (l.length : ℚ) := by
  induction l with
  | nil => simp
  | cons a as ih =>
    have ha : a ≤ c := h a (List.mem_cons_self a as)
    have has := ih (fun x hx => h x (List.mem_cons_of_mem a hx))
    have expand : c * (((a :: as).length : ℕ) : ℚ) = c * ((as.length : ℕ) : ℚ) + c := by
      push_cast [List.length_cons]
      ring
    rw [expand, List.sum_cons]
    linarith

theorem foldl_min_mem (xs : List ℚ) : ∀ x : ℚ, xs.foldl Min.min x ∈ x :: xs := by
  induction xs with
  | nil => intro x; simp
  | cons a as ih =>
    intro x
    simp only [List.foldl_cons]
    rcases List.mem_cons.mp (ih (Min.min x a)) with h | h
    · rcases min_choice x a with hc | hc
      · rw [h, hc]; exact List.mem_cons_self _ _
      · rw [h, hc]; exact List.mem_cons_of_mem _ (List.mem_cons_self _ _)
    · exact List.mem_cons_of_mem _ (List.mem_cons_of_mem _ h)

theorem foldl_max_mem (xs : List ℚ) : ∀ x : ℚ, xs.foldl Max.max x ∈ x :: xs := by
  induction xs with
  | nil => intro x; simp
  | cons a as ih =>
    intro x
    simp only [List.foldl_cons]
    rcases List.mem_cons.mp (ih (Max.max x a)) with h | h
    · rcases max_choice x a with hc | hc
      · rw [h, hc]; exact List.mem_cons_self _ _
      · rw [h, hc]; exact List.mem_cons_of_mem _ (List.mem_cons_self _ _)
    · exact List.mem_cons_of_mem _ (List.mem_cons_of_mem _ h)

/-! ### Claims about the summary aggregation (C4, C6) -/

/-- C4: for every per-community metric, graph and non-empty partition, the
summary=True result satisfies min ≤ mean ≤ max and std ≥ 0. -/
theorem summary_bounds (lib : PQLib) (graph : Graph)
    (communities : List (Finset ℕ)) (sf : ScoringFunction)
    (h : communities ≠ []) :
    ∃ r : FitnessResult,
      quality_indexes lib graph communities sf true = some (.summarized r) ∧
        r.min ≤ r.mean ∧ r.mean ≤ r.max ∧ 0 ≤ r.std := by
  obtain ⟨com, rest, hco⟩ : ∃ com rest, communities = com :: rest := by
    cases communities with
    | nil => exact absurd rfl h
    | cons com rest => exact ⟨com, rest, rfl⟩
  subst hco
  set f : Finset ℕ → ℚ :=
    fun com => applyScoring lib sf graph (subgraph graph com) with hf
  set x : ℚ := f com
  set xs : List ℚ := rest.map f
  have hval : communityValues lib graph (com :: rest) sf = x :: xs := by
    simp [communityValues, hf]
  refine ⟨⟨xs.foldl Min.min x, xs.foldl Max.max x, npMean (x :: xs), npStd (x :: xs)⟩,
    ?_, ?_, ?_, ?_⟩
  · simp [quality_indexes, hval, fitnessSummary]
  · have hlen : (0 : ℚ) < ((x :: xs).length : ℚ) := by
      simp [List.length_cons]
      positivity
    have hbound := mul_length_le_sum (x :: xs) (xs.foldl Min.min x)
      (fun y hy => foldl_min_le xs x y hy)
    simpa [npMean] using (le_div_iff₀ hlen).mpr hbound
  · have hlen : (0 : ℚ) < ((x :: xs).length : ℚ) := by
      simp [List.length_cons]
      positivity
    have hbound := sum_le_mul_length (x :: xs) (xs.foldl Max.max x)
      (fun y hy => le_foldl_max xs x y hy)
    simpa [npMean] using (div_le_iff₀ hlen).mpr hbound
  · exact Real.sqrt_nonneg _

/-- C6: on an empty partition, every summary=True call fails: the minimum of
an empty values list is undefined, so no value is returned. -/
theorem summary_empty_partition_fails (lib : PQLib) (graph : Graph)
    (sf : ScoringFunction) :
    quality_indexes lib graph [] sf true = none := rfl

/-- C1: `quality_indexes` scores each community's induced subgraph — the
subgraph alone for the five subgraph-only metrics, the pair (graph, subgraph)
for the graph-relative ones — in the order the communities appear; it returns
the raw list of values when summary=False, and when summary=True (the default)
the 4-tuple whose fields are the minimum, the maximum, the mean and the
standard deviation of that list. -/
theorem quality_indexes_contract (lib : PQLib) (graph : Graph)
    (communities : List (Finset ℕ)) :
    (∀ m ∈ subgraphOnlyMetrics, ∀ i com, communities.get? i = some com →
        (communityValues lib graph communities (.pq m)).get? i =
          some (lib.evalSub m (subgraph graph com))) ∧
    (∀ m : PQMetric, m ∉ subgraphOnlyMetrics →
        ∀ i com, communities.get? i = some com →
          (communityValues lib graph communities (.pq m)).get? i =
            some (lib.evalRel m graph (subgraph graph com))) ∧
    (∀ sf, quality_indexes lib graph communities sf false =
        some (.raw (communityValues lib graph communities sf))) ∧
    (∀ sf x xs, communityValues lib graph communities sf = x :: xs →
        ∃ r : FitnessResult,
          quality_indexes lib graph communities sf true = some (.summarized r) ∧
            r.min ∈ x :: xs ∧ (∀ y ∈ x :: xs, r.min ≤ y) ∧
            r.max ∈ x :: xs ∧ (∀ y ∈ x :: xs, y ≤ r.max) ∧
            r.mean = npMean (x :: xs) ∧ r.std = npStd (x :: xs)) ∧
    (∀ sf, quality_indexes lib graph communities sf =
        quality_indexes lib graph communities sf true) := by
  refine ⟨?_, ?_, ?_, ?_, ?_⟩
  · intro m hm i com hcom
    simp only [List.get?_eq_getElem?] at hcom ⊢
    simp [communityValues, List.getElem?_map, hcom, applyScoring, hm]
  · intro m hm i com hcom
    simp only [List.get?_eq_getElem?] at hcom ⊢
    simp [communityValues, List.getElem?_map, hcom, applyScoring, hm]
  · intro sf
    rfl
  · intro sf x xs hval
    refine ⟨⟨xs.foldl Min.min x, xs.foldl Max.max x, npMean (x :: xs), npStd (x :: xs)⟩,
      ?_, foldl_min_mem xs x, fun y hy => foldl_min_le xs x y hy,
      foldl_max_mem xs x, fun y hy => le_foldl_max xs x y hy, rfl, rfl⟩
    simp [quality_indexes, hval, fitnessSummary]
  · intro sf
    rfl

/-- C3: the size metric with summary=False returns the list of the community
cardinalities `|Ci|`, in the order the communities appear. -/
theorem size_measures_community_cardinalities (lib : PQLib) (graph : Graph)
    (communities : List (Finset ℕ))
    (h : ∀ com ∈ communities, com ⊆ graph.nodes) :
    size lib graph communities false =
      some (.raw (communities.map (fun com => (com.card : ℚ)))) := by
  have hmap : communityValues lib graph communities
      (.custom (fun _graph com => (com.number_of_nodes : ℚ))) =
      communities.map (fun com => (com.card : ℚ)) := by
    unfold communityValues
    refine List.map_congr_left (fun com hcom => ?_)
    have : graph.nodes ∩ com = com := Finset.inter_eq_right.mpr (h com hcom)
    simp [applyScoring, subgraph, Graph.number_of_nodes, this]
  unfold size quality_indexes
  simp [hmap]

/-- Witness for C3: the sizes of `[{0, 1}, {2}]` inside the path graph. -/
theorem size_measures_community_cardinalities_witness :
    size constLib pathGraph [{0, 1}, {2}] false =
      some (.raw (([{0, 1}, {2}] : List (Finset ℕ)).map (fun com => (com.card : ℚ)))) :=
  size_measures_community_cardinalities constLib pathGraph [{0, 1}, {2}] (by decide)

/-- Witness for C4 at a concrete graph, partition and scoring library. -/
theorem summary_bounds_witness :
    ∃ r : FitnessResult,
      quality_indexes ⟨fun _ g => (g.number_of_nodes : ℚ), fun _ g _ => (g.number_of_edges : ℚ)⟩
        ⟨{0, 1, 2}, {(0, 1), (1, 2)}⟩ [{0, 1}, {2}] (.pq .edges_inside) true =
          some (.summarized r) ∧
        r.min ≤ r.mean ∧ r.mean ≤ r.max ∧ 0 ≤ r.std :=
  summary_bounds _ _ _ _ (by decide)

/-! ### The loops of the modularity-family metrics, in closed form -/

theorem erLoop_eq (graph : Graph) (m n : ℕ) (communities : List (Finset ℕ)) :
    ∀ q : ℚ, erLoop graph m n q communities =
      if (n : ℚ) * ((n : ℚ) - 1) = 0 ∧ communities ≠ [] then none
      else some (q + (communities.map (erTerm graph m n)).sum) := by
  induction communities with
  | nil => intro q; simp [erLoop]
  | cons com rest ih =>
    intro q
    by_cases hd : (n : ℚ) * ((n : ℚ) - 1) = 0
    · simp [erLoop, hd]
    · simp [erLoop, hd, ih, add_assoc]

theorem mdLoop_eq (graph : Graph) (communities : List (Finset ℕ)) :
    ∀ q : ℚ, mdLoop graph q communities =
      if ∃ com ∈ communities, (subgraph graph com).number_of_nodes = 0 then none
      else some (q + (communities.map (mdTerm graph)).sum) := by
  induction communities with
  | nil => intro q; simp [mdLoop]
  | cons com rest ih =>
    intro q
    by_cases hc : (subgraph graph com).number_of_nodes = 0
    · simp [mdLoop, hc]
    · simp [mdLoop, hc, ih, add_assoc]

theorem zLoop_eq (graph : Graph) (m : ℕ) (hm : m ≠ 0)
    (communities : List (Finset ℕ)) :
    ∀ a b : ℚ, zLoop graph m a b communities =
      some (a + (communities.map
          (fun com => ((subgraph graph com).number_of_edges : ℚ) / m)).sum,
        b + (communities.map
          (fun com => ((dcSum (subgraph graph com) : ℚ) / (2 * m)) ^ 2)).sum) := by
  induction communities with
  | nil => intro a b; simp [zLoop]
  | cons com rest ih => intro a b; simp [zLoop, hm, ih, add_assoc]

/-- In a well-formed graph, an edge exhibits two distinct nodes. -/
theorem two_le_nodes_of_edge (G : Graph) (h : G.WF) (he : G.edges.Nonempty) :
    2 ≤ G.number_of_nodes := by
  obtain ⟨e, hee⟩ := he
  obtain ⟨hlt, h1, h2⟩ := h e hee
  exact Finset.one_lt_card.mpr ⟨e.1, h1, e.2, h2, Nat.ne_of_lt hlt⟩

/-- C2: `erdos_renyi_modularity` computes
`(1/m) Σ_c [mc − m·nc·(nc−1)/(n·(n−1))]` whenever `m > 0` and `n > 1`, and
fails by division by zero whenever `n ≤ 1` or `m = 0`. -/
theorem erdos_renyi_modularity_spec (graph : Graph)
    (communities : List (Finset ℕ)) (hWF : graph.WF) :
    (0 < graph.number_of_edges → 1 < graph.number_of_nodes →
        erdos_renyi_modularity graph communities =
          some ((1 / (graph.number_of_edges : ℚ)) *
            (communities.map
              (erTerm graph graph.number_of_edges graph.number_of_nodes)).sum)) ∧
    ((graph.number_of_nodes ≤ 1 ∨ graph.number_of_edges = 0) →
        erdos_renyi_modularity graph communities = none) := by
  constructor
  · intro hm hn
    have h2 : (2 : ℚ) ≤ (graph.number_of_nodes : ℚ) := by exact_mod_cast hn
    have hpos : (0 : ℚ) < (graph.number_of_nodes : ℚ) := by linarith
    have hpos1 : (0 : ℚ) < (graph.number_of_nodes : ℚ) - 1 := by linarith
    have hd : (graph.number_of_nodes : ℚ) * ((graph.number_of_nodes : ℚ) - 1) ≠ 0 :=
      ne_of_gt (mul_pos hpos hpos1)
    have hm' : graph.number_of_edges ≠ 0 := Nat.pos_iff_ne_zero.mp hm
    simp [erdos_renyi_modularity, erLoop_eq, hd, hm']
  · intro hcase
    have hm0 : graph.number_of_edges = 0 := by
      rcases hcase with hn | hm
      · by_contra hm
        have hne : graph.edges.Nonempty :=
          Finset.card_pos.mp (Nat.pos_of_ne_zero hm)
        have := two_le_nodes_of_edge graph hWF hne
        omega
      · exact hm
    cases herLoop : erLoop graph graph.number_of_edges graph.number_of_nodes
        0 communities with
    | none => simp [erdos_renyi_modularity, herLoop]
    | some q =>
      simp only [erdos_renyi_modularity, herLoop]
      simp [hm0]

/-- Witness for C2: a single isolated node (`n = 1`, `m = 0`) makes the call
fail. -/
theorem erdos_renyi_modularity_spec_witness :
    erdos_renyi_modularity singletonGraph [{0}] = none :=
  (erdos_renyi_modularity_spec singletonGraph [{0}] (by decide)).2
    (Or.inl (by decide))

/-- C7: Erdos-Renyi modularity and modularity density do not depend on the
order in which the communities are listed. -/
theorem modularity_order_invariant (graph : Graph)
    (coms₁ coms₂ : List (Finset ℕ)) (h : coms₁.Perm coms₂) :
    erdos_renyi_modularity graph coms₁ = erdos_renyi_modularity graph coms₂ ∧
      modularity_density graph coms₁ = modularity_density graph coms₂ := by
  constructor
  · have hloop : erLoop graph graph.number_of_edges graph.number_of_nodes 0 coms₁ =
        erLoop graph graph.number_of_edges graph.number_of_nodes 0 coms₂ := by
      rw [erLoop_eq, erLoop_eq]
      have hlen := h.length_eq
      have hsum :=
        (h.map (erTerm graph graph.number_of_edges graph.number_of_nodes)).sum_eq
      simp only [ne_eq, ← List.length_eq_zero, hlen, hsum]
    simp only [erdos_renyi_modularity]
    rw [hloop]
  · have hloop : mdLoop graph 0 coms₁ = mdLoop graph 0 coms₂ := by
      rw [mdLoop_eq, mdLoop_eq]
      have hsum := (h.map (mdTerm graph)).sum_eq
      have hex : (∃ com ∈ coms₁, (subgraph graph com).number_of_nodes = 0) ↔
          ∃ com ∈ coms₂, (subgraph graph com).number_of_nodes = 0 := by
        constructor
        · rintro ⟨c, hc, hp⟩
          exact ⟨c, h.mem_iff.mp hc, hp⟩
        · rintro ⟨c, hc, hp⟩
          exact ⟨c, h.mem_iff.mpr hc, hp⟩
      simp only [hsum, hex]
    unfold modularity_density
    rw [hloop]

/-- Witness for C7: swapping the two communities of a concrete partition. -/
theorem modularity_order_invariant_witness :
    erdos_renyi_modularity pathGraph [{0}, {1, 2}] =
        erdos_renyi_modularity pathGraph [{1, 2}, {0}] ∧
      modularity_density pathGraph [{0}, {1, 2}] =
        modularity_density pathGraph [{1, 2}, {0}] :=
  modularity_order_invariant pathGraph [{0}, {1, 2}] [{1, 2}, {0}]
    (List.Perm.swap _ _ _)

/-! ### C5: surprise and significance on edgeless graphs -/

/-- C5: with no edges, both `surprise` (at `q = q/m`) and `significance`
(at `p = m/C(m,2)`) fail with a division-by-zero error and return nothing. -/
theorem surprise_significance_fail_without_edges (graph : Graph)
    (communities : List (Finset ℕ)) (hm : graph.number_of_edges = 0) :
    surprise graph communities = none ∧
      significance graph communities = none := by
  constructor
  · simp [surprise, hm, pydiv]
  · have hch : Nat.choose 0 2 = 0 := rfl
    simp [significance, hm, hch, pydiv]

/-- Witness for C5: an isolated node has no edges, and both scores fail. -/
theorem surprise_significance_fail_without_edges_witness :
    surprise singletonGraph [{0}] = none ∧
      significance singletonGraph [{0}] = none :=
  surprise_significance_fail_without_edges singletonGraph [{0}] (by decide)

/-! ### C9: the node → community-id assignment of Newman-Girvan -/

theorem buildPartitionAux_eq (communities : List (Finset ℕ)) :
    ∀ (cid : ℕ) (acc : ℕ → Option ℕ) (v : ℕ),
      buildPartitionAux cid communities acc v =
        match lastMem communities v with
        | some j => some (cid + j)
        | none => acc v := by
  induction communities with
  | nil => intro cid acc v; simp [buildPartitionAux, lastMem]
  | cons com rest ih =>
    intro cid acc v
    rw [buildPartitionAux, ih]
    cases hrest : lastMem rest v with
    | some j => simp [lastMem, hrest, Nat.add_assoc, Nat.add_comm 1 j]
    | none =>
      by_cases hv : v ∈ com
      · simp [lastMem, hrest, hv]
      · simp [lastMem, hrest, hv]

theorem lastMem_none (communities : List (Finset ℕ)) (v : ℕ)
    (h : lastMem communities v = none) :
    ∀ k (hk : k < communities.length), v ∉ communities.get ⟨k, hk⟩ := by
  induction communities with
  | nil => intro k hk; simp at hk
  | cons com rest ih =>
    intro k hk
    cases hrest : lastMem rest v with
    | some j => simp [lastMem, hrest] at h
    | none =>
      have hv : v ∉ com := by
        by_contra hv
        simp [lastMem, hrest, hv] at h
      cases k with
      | zero => simpa using hv
      | succ k =>
        have hk' : k < rest.length := by simpa using hk
        simpa using ih hrest k hk'

theorem lastMem_spec (communities : List (Finset ℕ)) (v : ℕ) :
    ∀ j, lastMem communities v = some j →
      ∃ hj : j < communities.length,
        v ∈ communities.get ⟨j, hj⟩ ∧
          ∀ k (hk : k < communities.length),
            v ∈ communities.get ⟨k, hk⟩ → k ≤ j := by
  induction communities with
  | nil => intro j hj; simp [lastMem] at hj
  | cons com rest ih =>
    intro j hj
    cases hrest : lastMem rest v with
    | some j' =>
      have hjj : j = j' + 1 := by
        simp [lastMem, hrest] at hj
        omega
      subst hjj
      obtain ⟨hj', hmem, hmax⟩ := ih j' hrest
      refine ⟨by simpa using Nat.succ_lt_succ hj', by simpa using hmem, ?_⟩
      intro k hk hkmem
      cases k with
      | zero => exact Nat.zero_le _
      | succ k =>
        have hk' : k < rest.length := by simpa using hk
        exact Nat.succ_le_succ (hmax k hk' (by simpa using hkmem))
    | none =>
      have hv : v ∈ com := by
        by_cases hv : v ∈ com
        · exact hv
        · simp [lastMem, hrest, hv] at hj
      have hj0 : j = 0 := by
        simp [lastMem, hrest, hv] at hj
        omega
      subst hj0
      refine ⟨by simp, by simpa using hv, ?_⟩
      intro k hk hkmem
      cases k with
      | zero => exact Nat.le_refl 0
      | succ k =>
        have hk' : k < rest.length := by simpa using hk
        exact absurd (by simpa using hkmem) (lastMem_none rest v hrest k hk')

/-- C9: `newman_girvan_modularity`'s node → community-id dictionary assigns a
node that belongs to several communities to the index of the last community
(greatest position) containing it: later assignments overwrite earlier ones. -/
theorem partition_last_assignment_wins (communities : List (Finset ℕ)) (v : ℕ)
    (i : ℕ) (hi : i < communities.length)
    (hv : v ∈ communities.get ⟨i, hi⟩) :
    ∃ j, ∃ hj : j < communities.length,
      buildPartition communities v = some j ∧
        v ∈ communities.get ⟨j, hj⟩ ∧
          ∀ k (hk : k < communities.length),
            v ∈ communities.get ⟨k, hk⟩ → k ≤ j := by
  cases hlast : lastMem communities v with
  | none => exact absurd hv (lastMem_none communities v hlast i hi)
  | some j =>
    obtain ⟨hj, hmem, hmax⟩ := lastMem_spec communities v j hlast
    refine ⟨j, hj, ?_, hmem, hmax⟩
    rw [buildPartition, buildPartitionAux_eq, hlast]
    simp

/-- Witness for C9: node 2 lies in both communities of `[{1, 2}, {2, 3}]` and
is assigned to the last one. -/
theorem partition_last_assignment_wins_witness :
    ∃ j, ∃ hj : j < ([{1, 2}, {2, 3}] : List (Finset ℕ)).length,
      buildPartition [{1, 2}, {2, 3}] 2 = some j ∧
        2 ∈ ([{1, 2}, {2, 3}] : List (Finset ℕ)).get ⟨j, hj⟩ ∧
          ∀ k (hk : k < ([{1, 2}, {2, 3}] : List (Finset ℕ)).length),
            2 ∈ ([{1, 2}, {2, 3}] : List (Finset ℕ)).get ⟨k, hk⟩ → k ≤ j :=
  partition_last_assignment_wins [{1, 2}, {2, 3}] 2 0 (by decide) (by decide)

/-! ### C10: the degree sum of `z_modularity` is twice the edge count -/

theorem subgraph_WF (G : Graph) (com : Finset ℕ) (h : G.WF) :
    (subgraph G com).WF := by
  intro p hp
  simp only [subgraph, Finset.mem_filter] at hp
  obtain ⟨hpe, hp1, hp2⟩ := hp
  obtain ⟨hlt, h1, h2⟩ := h p hpe
  exact ⟨hlt, Finset.mem_inter.mpr ⟨h1, hp1⟩, Finset.mem_inter.mpr ⟨h2, hp2⟩⟩

/-- Handshake: in a well-formed graph, the sum of the degrees over the nodes
counts every edge twice. -/
theorem sum_degrees_eq_twice_edges (G : Graph) (h : G.WF) :
    dcSum G = 2 * G.number_of_edges := by
  unfold dcSum Graph.degree Graph.number_of_edges
  have hswap :
      G.nodes.sum (fun v => (G.edges.filter (fun p => p.1 = v ∨ p.2 = v)).card) =
        G.edges.sum (fun e => (G.nodes.filter (fun v => e.1 = v ∨ e.2 = v)).card) := by
    simp only [Finset.card_filter]
    exact Finset.sum_comm
  rw [hswap]
  have hcard : ∀ e ∈ G.edges,
      (G.nodes.filter (fun v => e.1 = v ∨ e.2 = v)).card = 2 := by
    intro e he
    obtain ⟨hlt, h1, h2⟩ := h e he
    have hfe : G.nodes.filter (fun v => e.1 = v ∨ e.2 = v) = {e.1, e.2} := by
      ext v
      simp only [Finset.mem_filter, Finset.mem_insert, Finset.mem_singleton]
      constructor
      · rintro ⟨_, hv | hv⟩
        · exact Or.inl hv.symm
        · exact Or.inr hv.symm
      · rintro (hv | hv)
        · exact ⟨hv ▸ h1, Or.inl hv.symm⟩
        · exact ⟨hv ▸ h2, Or.inr hv.symm⟩
    rw [hfe, Finset.card_insert_of_not_mem (by simp [Nat.ne_of_lt hlt]),
      Finset.card_singleton]
  rw [Finset.sum_congr rfl hcard, Finset.sum_const, smul_eq_mul, Nat.mul_comm]

/-- C10: in `z_modularity` the accumulated degree sum of each community's
induced subgraph equals twice its intra-community edge count, so on any graph
with at least one edge `z_modularity` equals the simplified expression built
from `Σ_c mc/m` and `Σ_c (mc/m)²` alone. -/
theorem z_modularity_refines_simplified (graph : Graph)
    (communities : List (Finset ℕ)) (hWF : graph.WF)
    (hm : graph.number_of_edges ≠ 0) :
    (∀ com ∈ communities, dcSum (subgraph graph com) =
        2 * (subgraph graph com).number_of_edges) ∧
      z_modularity graph communities =
        some (z_modularity_simplified graph communities) := by
  have hhand : ∀ com : Finset ℕ, dcSum (subgraph graph com) =
      2 * (subgraph graph com).number_of_edges :=
    fun com => sum_degrees_eq_twice_edges _ (subgraph_WF graph com hWF)
  refine ⟨fun com _ => hhand com, ?_⟩
  have hm' : ((graph.number_of_edges : ℕ) : ℚ) ≠ 0 := Nat.cast_ne_zero.mpr hm
  have hterm : communities.map
      (fun com => ((dcSum (subgraph graph com) : ℚ) /
        (2 * (graph.number_of_edges : ℚ))) ^ 2) =
      communities.map
      (fun com => (((subgraph graph com).number_of_edges : ℚ) /
        (graph.number_of_edges : ℚ)) ^ 2) := by
    refine List.map_congr_left (fun com _ => ?_)
    rw [hhand com]
    push_cast
    rw [mul_div_mul_left _ _ (two_ne_zero)]
  simp only [z_modularity, z_modularity_simplified, zLoop_eq graph _ hm,
    Option.map_some]
  rw [hterm]
  simp

/-- Witness for C10 on the path graph with partition `[{0, 1}, {2}]`. -/
theorem z_modularity_refines_simplified_witness :
    (∀ com ∈ ([{0, 1}, {2}] : List (Finset ℕ)), dcSum (subgraph pathGraph com) =
        2 * (subgraph pathGraph com).number_of_edges) ∧
      z_modularity pathGraph [{0, 1}, {2}] =
        some (z_modularity_simplified pathGraph [{0, 1}, {2}]) :=
  z_modularity_refines_simplified pathGraph [{0, 1}, {2}] (by decide) (by decide)

/-! ### C8: the end-to-end ring scenario -/

/-- C8: on the 4-node ring with partition `[{0, 1}, {2, 3}]`, Newman-Girvan
modularity is exactly 0. -/
theorem newman_girvan_ring_zero :
    newman_girvan_modularity ringGraph [{0, 1}, {2, 3}] = some 0 := by
  have hm : ringGraph.number_of_edges = 4 := by decide
  have hcids : ringGraph.nodes.biUnion
      (fun v => (buildPartition [{0, 1}, {2, 3}] v).toFinset) = {0, 1} := by
    decide
  have hec0 : (ringGraph.edges.filter
      (fun p => buildPartition [{0, 1}, {2, 3}] p.1 = some 0 ∧
        buildPartition [{0, 1}, {2, 3}] p.2 = some 0)).card = 1 := by decide
  have hec1 : (ringGraph.edges.filter
      (fun p => buildPartition [{0, 1}, {2, 3}] p.1 = some 1 ∧
        buildPartition [{0, 1}, {2, 3}] p.2 = some 1)).card = 1 := by decide
  have hdc0 : (ringGraph.nodes.filter
      (fun v => buildPartition [{0, 1}, {2, 3}] v = some 0)).sum
        ringGraph.degree = 4 := by decide
  have hdc1 : (ringGraph.nodes.filter
      (fun v => buildPartition [{0, 1}, {2, 3}] v = some 1)).sum
        ringGraph.degree = 4 := by decide
  have hdc0Q : (ringGraph.nodes.filter
      (fun v => buildPartition [{0, 1}, {2, 3}] v = some 0)).sum
        (fun x => ((ringGraph.degree x : ℕ) : ℚ)) = 4 := by
    rw [← Nat.cast_sum, hdc0]
    norm_num
  have hdc1Q : (ringGraph.nodes.filter
      (fun v => buildPartition [{0, 1}, {2, 3}] v = some 1)).sum
        (fun x => ((ringGraph.degree x : ℕ) : ℚ)) = 4 := by
    rw [← Nat.cast_sum, hdc1]
    norm_num
  simp only [newman_girvan_modularity, community_modularity, hm, hcids]
  norm_num [Finset.sum_insert, Finset.sum_singleton, hec0, hec1, hdc0Q, hdc1Q]

end Nclib
